import Mathlib

/-!
# Verification of the gpx2js track-processing pipeline

A shallow embedding of `src/main.rs` of gpx2js-rs.  Numeric coordinates are
`f64` in the source; every operation the verified claims depend on is exact
(`==` comparisons, subtraction/multiplication of small decimals, scaling by a
power of ten), so the numeric domain is modelled by `ℚ`.  `usize` arithmetic
is modelled by `Nat` with explicit wrap-around at `2^64` where overflow
matters (release-profile semantics of Rust integer overflow); the one place
the source under-flows a `usize` is modelled separately (`debugLoopBound`).
Fallible operations (`unwrap` panics) are modelled by `Option`/result types.
-/

/-- `struct LatLng { lat: f64, lng: f64 }` (main.rs:12-16).  `PartialEq` is
derived in the source; equality of coordinates is exact. -/
structure LatLng where
  lat : ℚ
  lng : ℚ
deriving DecidableEq, Repr

/-- `struct CoordsFile { name, trk_type, coords }` (main.rs:18-22). -/
structure CoordsFile where
  name : String
  trk_type : String
  coords : List LatLng
deriving DecidableEq, Repr

/-- `f64::round`: round to the nearest integer, halves away from zero. -/
def rust_round (q : ℚ) : ℤ :=
  if q ≥ 0 then ⌊q + 1 / 2⌋ else ⌈q - 1 / 2⌉

/-- `round_val` (main.rs:24-27): `(value * 10^digits).round() / 10^digits`. -/
def round_val (value : ℚ) (digits : ℕ) : ℚ :=
  let y : ℚ := (10 : ℚ) ^ digits
  (rust_round (value * y) : ℚ) / y

/-- `in_line` (main.rs:29-31): the exact cross-product collinearity test
`(a.lat - c.lat) * (c.lng - b.lng) == (c.lat - b.lat) * (a.lng - c.lng)`. -/
def in_line (a b c : LatLng) : Bool :=
  decide ((a.lat - c.lat) * (c.lng - b.lng) = (c.lat - b.lat) * (a.lng - c.lng))

/-! ## Simplification stage (`remove_straight_line_points`, main.rs:247-283)

The source iterates `for i in 0..=coords.len() - 3`, breaks when
`i + 2 >= coords.len()` (the list may have shrunk), removes `coords[i + 1]`
when the collinearity test fires, and advances `i` on every iteration
(a Rust `for` loop index is not influenced by the body).  `rslpLoop` is the
loop with an explicit index; `remove_straight_line_points` supplies the
loop bound `coords.len() - 3` computed with 64-bit wrap-around. -/

/-- `2^64`, the modulus of `usize` arithmetic. -/
def USIZE : Nat := 18446744073709551616

/-- `coords.len() - 3` under release-profile (wrapping) `usize` semantics. -/
def usizeSub3 (n : Nat) : Nat := (n + USIZE - 3) % USIZE

/-- `coords.len() - 3` under debug-profile `usize` semantics, where the
subtraction panics (`none`) on underflow, i.e. whenever `len < 3`. -/
def debugLoopBound (len : Nat) : Option Nat :=
  if len < 3 then none else some (len - 3)

/-- The loop body of main.rs:253-274: while the index is in the range
`0..=bound` — first check — and `i + 2 < coords.len()` — the `break` guard —
remove `coords[i+1]` if `in_line(coords[i], coords[i+2], coords[i+1])`, and
advance `i` in both branches (the `for` loop always increments). -/
def rslpLoop (bound : Nat) (coords : List LatLng) (i : Nat) : List LatLng :=
  if i > bound then coords
  else if h : i + 2 < coords.length then
    if in_line (coords.get ⟨i, by omega⟩) (coords.get ⟨i + 2, h⟩) (coords.get ⟨i + 1, by omega⟩)
    then rslpLoop bound (coords.eraseIdx (i + 1)) (i + 1)
    else rslpLoop bound coords (i + 1)
  else coords
termination_by bound + 1 - i
decreasing_by all_goals omega

/-- `remove_straight_line_points` on one track's point list (main.rs:247-283),
with the loop bound computed as in the source. -/
def remove_straight_line_points (coords : List LatLng) : List LatLng :=
  rslpLoop (usizeSub3 coords.length) coords 0

/-- Structural reformulation of the same single pass: emit the current point,
then either drop the middle point of the window and continue at the window's
third point, or keep it and slide the window by one.  Proved equal to
`remove_straight_line_points` in `rslp_loop_eq`. -/
def rslp (l : List LatLng) : List LatLng :=
  match l with
  | a :: b :: c :: rest =>
    if in_line a c b then a :: rslp (c :: rest) else a :: rslp (b :: c :: rest)
  | l => l
termination_by structural l

theorem rslp_cons3 (a b c : LatLng) (rest : List LatLng) :
    rslp (a :: b :: c :: rest) =
      if in_line a c b then a :: rslp (c :: rest) else a :: rslp (b :: c :: rest) := rfl

theorem rslp_short (l : List LatLng) (h : l.length < 3) : rslp l = l := by
  rcases l with _ | ⟨a, _ | ⟨b, _ | ⟨c, rest⟩⟩⟩
  · rfl
  · rfl
  · rfl
  · simp only [List.length_cons] at h; omega

theorem eraseIdx_take_drop {α : Type _} (l : List α) (n : Nat) :
    l.eraseIdx n = l.take n ++ l.drop (n + 1) := by
  induction l generalizing n with
  | nil => simp [List.eraseIdx]
  | cons a l ih =>
    cases n with
    | zero => simp [List.eraseIdx]
    | succ n => simp [List.eraseIdx, ih]

theorem rslpLoop_take_drop (k : Nat) (coords : List LatLng) (i bound : Nat)
    (hlen : coords.length ≤ bound + 3) (hk : bound + 1 - i ≤ k) :
    rslpLoop bound coords i = coords.take i ++ rslp (coords.drop i) := by
  induction k generalizing coords i with
  | zero =>
    have hi : i > bound := by omega
    rw [rslpLoop, if_pos hi]
    have hshort : (coords.drop i).length < 3 := by
      simp only [List.length_drop]; omega
    rw [rslp_short _ hshort, List.take_append_drop]
  | succ k ih =>
    by_cases hi : i > bound
    · rw [rslpLoop, if_pos hi]
      have hshort : (coords.drop i).length < 3 := by
        simp only [List.length_drop]; omega
      rw [rslp_short _ hshort, List.take_append_drop]
    · rw [rslpLoop, if_neg hi]
      by_cases h2 : i + 2 < coords.length
      · rw [dif_pos h2]
        rcases e : coords.drop i with _ | ⟨a, _ | ⟨b, _ | ⟨c, rest⟩⟩⟩
        · have := congrArg List.length e; simp at this; omega
        · have := congrArg List.length e; simp at this; omega
        · have := congrArg List.length e; simp at this; omega
        · have ha : coords.get ⟨i, by omega⟩ = a := by
            have h0 : (coords.drop i).get ⟨0, by rw [e]; simp⟩ = coords.get ⟨i, by omega⟩ := by
              simp [List.get_eq_getElem, List.getElem_drop]
            rw [← h0]; simp [e]
          have hb : coords.get ⟨i + 1, by omega⟩ = b := by
            have h0 : (coords.drop i).get ⟨1, by rw [e]; simp⟩ = coords.get ⟨i + 1, by omega⟩ := by
              simp [List.get_eq_getElem, List.getElem_drop]
            rw [← h0]; simp [e]
          have hc : coords.get ⟨i + 2, h2⟩ = c := by
            have h0 : (coords.drop i).get ⟨2, by rw [e]; simp⟩ = coords.get ⟨i + 2, h2⟩ := by
              simp [List.get_eq_getElem, List.getElem_drop]
            rw [← h0]; simp [e]
          rw [ha, hb, hc, rslp_cons3]
          have htake : coords.take (i + 1) = coords.take i ++ [a] := by
            have : coords[i]? = some a := by
              rw [List.getElem?_eq_getElem (by omega)]
              simpa using ha
            simp [List.take_succ, this]
          have hdrop1 : coords.drop (i + 1) = b :: c :: rest := by
            have : (coords.drop i).drop 1 = coords.drop (i + 1) := by
              rw [List.drop_drop]
            rw [← this, e]; rfl
          have hdrop2 : coords.drop (i + 2) = c :: rest := by
            have : (coords.drop i).drop 2 = coords.drop (i + 2) := by
              rw [List.drop_drop]
            rw [← this, e]; rfl
          by_cases hline : in_line a c b = true
          · rw [if_pos hline, if_pos hline]
            have hrw : coords.eraseIdx (i + 1) = coords.take (i + 1) ++ coords.drop (i + 2) :=
              eraseIdx_take_drop coords (i + 1)
            have hlen2 : (coords.eraseIdx (i + 1)).length ≤ bound + 3 := by
              rw [hrw]
              simp only [List.length_append, List.length_take, List.length_drop]
              omega
            rw [ih (coords.eraseIdx (i + 1)) (i + 1) hlen2 (by omega)]
            have hlt : (coords.take (i + 1)).length = i + 1 := by
              simp only [List.length_take]; omega
            rw [hrw, List.take_left' hlt, List.drop_left' hlt, hdrop2, htake]
            simp
          · rw [if_neg hline, if_neg hline]
            rw [ih coords (i + 1) hlen (by omega), htake, hdrop1]
            simp
      · rw [dif_neg h2]
        have hshort : (coords.drop i).length < 3 := by
          simp only [List.length_drop]; omega
        rw [rslp_short _ hshort, List.take_append_drop]

/-- The faithful loop model and the structural single pass agree whenever the
point list fits in a `usize`-indexed vector. -/
theorem rslp_loop_eq (coords : List LatLng) (h : coords.length < USIZE) :
    remove_straight_line_points coords = rslp coords := by
  unfold remove_straight_line_points
  have hb : coords.length ≤ usizeSub3 coords.length + 3 := by
    unfold usizeSub3 USIZE
    unfold USIZE at h
    omega
  simpa using rslpLoop_take_drop (usizeSub3 coords.length + 1) coords 0 _ hb (by omega)

theorem short_of_no_cons3 (l : List LatLng)
    (h : ∀ (a b c : LatLng) (rest : List LatLng), l = a :: b :: c :: rest → False) :
    l.length < 3 := by
  rcases l with _ | ⟨a, _ | ⟨b, _ | ⟨c, rest⟩⟩⟩
  · simp
  · simp
  · simp
  · exact (h a b c rest rfl).elim

theorem rslp_sublist (l : List LatLng) : List.Sublist (rslp l) l := by
  induction l using rslp.induct with
  | case1 a b c rest hl ih =>
    rw [rslp_cons3, if_pos hl]
    exact List.Sublist.cons₂ a (ih.trans (List.sublist_cons_self b (c :: rest)))
  | case2 a b c rest hl ih =>
    rw [rslp_cons3, if_neg hl]
    exact List.Sublist.cons₂ a ih
  | case3 l hno =>
    rw [rslp_short l (short_of_no_cons3 l hno)]

theorem rslp_length_le (l : List LatLng) : (rslp l).length ≤ l.length :=
  (rslp_sublist l).length_le

theorem rslp_head? (l : List LatLng) : (rslp l).head? = l.head? := by
  induction l using rslp.induct with
  | case1 a b c rest hl ih => rw [rslp_cons3, if_pos hl]; rfl
  | case2 a b c rest hl ih => rw [rslp_cons3, if_neg hl]; rfl
  | case3 l hno => rw [rslp_short l (short_of_no_cons3 l hno)]

theorem rslp_ne_nil (l : List LatLng) (h : l ≠ []) : rslp l ≠ [] := by
  intro hc
  have h1 := rslp_head? l
  rw [hc] at h1
  rcases l with _ | ⟨a, t⟩
  · exact h rfl
  · simp at h1

theorem getLast?_cons_of_ne_nil (x : LatLng) (l : List LatLng) (h : l ≠ []) :
    (x :: l).getLast? = l.getLast? := by
  rcases l with _ | ⟨a, t⟩
  · exact (h rfl).elim
  · rw [List.getLast?_cons_cons]

theorem rslp_getLast? (l : List LatLng) : (rslp l).getLast? = l.getLast? := by
  induction l using rslp.induct with
  | case1 a b c rest hl ih =>
    rw [rslp_cons3, if_pos hl,
      getLast?_cons_of_ne_nil a _ (rslp_ne_nil _ (by simp)),
      ih, List.getLast?_cons_cons, List.getLast?_cons_cons]
  | case2 a b c rest hl ih =>
    rw [rslp_cons3, if_neg hl,
      getLast?_cons_of_ne_nil a _ (rslp_ne_nil _ (by simp)),
      ih, List.getLast?_cons_cons, List.getLast?_cons_cons, List.getLast?_cons_cons]
  | case3 l hno => rw [rslp_short l (short_of_no_cons3 l hno)]

theorem rslp_fix (n : ℕ) (l : List LatLng) (h : l.length ≤ n) :
    rslp^[n + 1] l = rslp^[n] l := by
  induction n generalizing l with
  | zero =>
    have : l = [] := List.eq_nil_of_length_eq_zero (by omega)
    subst this
    simp [rslp]
  | succ n ih =>
    by_cases hf : rslp l = l
    · rw [Function.iterate_fixed hf, Function.iterate_fixed hf]
    · have hsub := rslp_sublist l
      have hlt : (rslp l).length < l.length :=
        lt_of_le_of_ne hsub.length_le (fun heq => hf (hsub.eq_of_length heq))
      rw [Function.iterate_succ_apply rslp (n + 1) l, Function.iterate_succ_apply rslp n l]
      exact ih (rslp l) (by omega)

theorem rslp_iter_transfer (n : ℕ) (l : List LatLng) (h : l.length < USIZE) :
    remove_straight_line_points^[n] l = rslp^[n] l := by
  induction n generalizing l with
  | zero => rfl
  | succ n ih =>
    rw [Function.iterate_succ_apply, Function.iterate_succ_apply,
      rslp_loop_eq l h]
    exact ih (rslp l) (lt_of_le_of_lt (rslp_length_le l) h)

/-- C1 (counterexample): on the four collinear points (0,0),(1,1),(2,2),(3,3)
the stage removes only (1,1).  The output still contains the interior point
(2,2), which is collinear with its current neighbours (0,0) and (3,3) — the
test `in_line(points[0], points[2], points[1])` holds on the output — so the
stage does not compute the claimed fixed point, and the survivor now at
index 1 was never re-checked against points[0]. -/
theorem c1_counterexample :
    remove_straight_line_points [⟨0, 0⟩, ⟨1, 1⟩, ⟨2, 2⟩, ⟨3, 3⟩] =
      [⟨0, 0⟩, ⟨2, 2⟩, ⟨3, 3⟩] ∧
    in_line ⟨0, 0⟩ ⟨3, 3⟩ ⟨2, 2⟩ = true := by
  constructor
  · norm_num [remove_straight_line_points, usizeSub3, USIZE]
    rw [rslpLoop]
    norm_num [in_line]
    rw [rslpLoop]
    norm_num [List.eraseIdx]
  · norm_num [in_line]

/-- C1 (amended): when the collinearity test holds at index `i`, the point at
`i + 1` is removed but the `for` loop still advances `i`, so the point newly
at `i + 1` is not re-checked against `points[i]`; the stage is exactly the
single advancing pass `rslp` (first conjunct: the removal step continues at
the window's third point; second conjunct: the whole loop equals that pass). -/
theorem c1_amended_single_pass :
    (∀ (a b c : LatLng) (rest : List LatLng), in_line a c b = true →
      rslp (a :: b :: c :: rest) = a :: rslp (c :: rest)) ∧
    (∀ coords : List LatLng, coords.length < USIZE →
      remove_straight_line_points coords = rslp coords) := by
  refine ⟨fun a b c rest h => ?_, rslp_loop_eq⟩
  rw [rslp_cons3, if_pos h]

/-- Witness for `c1_amended_single_pass` at a concrete input. -/
theorem c1_amended_single_pass_witness :
    remove_straight_line_points [⟨0, 0⟩, ⟨1, 1⟩, ⟨2, 2⟩, ⟨3, 3⟩] =
      rslp [⟨0, 0⟩, ⟨1, 1⟩, ⟨2, 2⟩, ⟨3, 3⟩] ∧
    rslp [⟨0, 0⟩, ⟨1, 1⟩, ⟨2, 2⟩, ⟨3, 3⟩] = ⟨0, 0⟩ :: rslp [⟨2, 2⟩, ⟨3, 3⟩] := by
  constructor
  · exact c1_amended_single_pass.2 _ (by norm_num [USIZE])
  · exact c1_amended_single_pass.1 _ _ _ _ (by norm_num [in_line])

/-- C2 (counterexample): the stage is not idempotent.  On the four collinear
points (0,0),(1,1),(2,2),(3,3) one run yields three points and a second run
removes one more. -/
theorem c2_counterexample :
    remove_straight_line_points
        (remove_straight_line_points [⟨0, 0⟩, ⟨1, 1⟩, ⟨2, 2⟩, ⟨3, 3⟩]) ≠
      remove_straight_line_points [⟨0, 0⟩, ⟨1, 1⟩, ⟨2, 2⟩, ⟨3, 3⟩] := by
  have h1 : remove_straight_line_points [⟨0, 0⟩, ⟨1, 1⟩, ⟨2, 2⟩, ⟨3, 3⟩] =
      [⟨0, 0⟩, ⟨2, 2⟩, ⟨3, 3⟩] := by
    norm_num [remove_straight_line_points, usizeSub3, USIZE]
    rw [rslpLoop]
    norm_num [in_line]
    rw [rslpLoop]
    norm_num [List.eraseIdx]
  have h2 : remove_straight_line_points [⟨0, 0⟩, ⟨2, 2⟩, ⟨3, 3⟩] =
      [⟨0, 0⟩, ⟨3, 3⟩] := by
    norm_num [remove_straight_line_points, usizeSub3, USIZE]
    rw [rslpLoop]
    norm_num [in_line]
    rw [rslpLoop]
    norm_num [List.eraseIdx]
  rw [h1, h2]
  intro hc
  have := congrArg List.length hc
  simp at this

/-- C2 (amended): a single pass is not idempotent, but iterating the stage
stabilises: after `length` passes a fixed point is reached. -/
theorem c2_amended_iterate_stabilizes (l : List LatLng) (h : l.length < USIZE) :
    remove_straight_line_points^[l.length + 1] l =
      remove_straight_line_points^[l.length] l := by
  rw [rslp_iter_transfer _ _ h, rslp_iter_transfer _ _ h]
  exact rslp_fix l.length l le_rfl

/-- Witness for `c2_amended_iterate_stabilizes` at a concrete input. -/
theorem c2_amended_iterate_stabilizes_witness :
    remove_straight_line_points^[5] [⟨0, 0⟩, ⟨1, 1⟩, ⟨2, 2⟩, ⟨3, 3⟩] =
      remove_straight_line_points^[4] [⟨0, 0⟩, ⟨1, 1⟩, ⟨2, 2⟩, ⟨3, 3⟩] := by
  have h := c2_amended_iterate_stabilizes [⟨0, 0⟩, ⟨1, 1⟩, ⟨2, 2⟩, ⟨3, 3⟩]
    (by norm_num [USIZE])
  simpa using h

/-- C7: the simplification stage returns a subsequence of its input that keeps
the first and last points and never grows. -/
theorem c7_endpoints_preserved (coords : List LatLng) (h : coords.length < USIZE) :
    List.Sublist (remove_straight_line_points coords) coords ∧
    (remove_straight_line_points coords).head? = coords.head? ∧
    (remove_straight_line_points coords).getLast? = coords.getLast? ∧
    (remove_straight_line_points coords).length ≤ coords.length := by
  rw [rslp_loop_eq coords h]
  exact ⟨rslp_sublist coords, rslp_head? coords, rslp_getLast? coords,
    rslp_length_le coords⟩

/-- Witness for `c7_endpoints_preserved` at a concrete input. -/
theorem c7_endpoints_preserved_witness :
    List.Sublist (remove_straight_line_points [⟨0, 0⟩, ⟨1, 1⟩, ⟨2, 2⟩, ⟨3, 3⟩])
        [⟨0, 0⟩, ⟨1, 1⟩, ⟨2, 2⟩, ⟨3, 3⟩] ∧
    (remove_straight_line_points [⟨0, 0⟩, ⟨1, 1⟩, ⟨2, 2⟩, ⟨3, 3⟩]).head? =
      ([⟨0, 0⟩, ⟨1, 1⟩, ⟨2, 2⟩, ⟨3, 3⟩] : List LatLng).head? ∧
    (remove_straight_line_points [⟨0, 0⟩, ⟨1, 1⟩, ⟨2, 2⟩, ⟨3, 3⟩]).getLast? =
      ([⟨0, 0⟩, ⟨1, 1⟩, ⟨2, 2⟩, ⟨3, 3⟩] : List LatLng).getLast? ∧
    (remove_straight_line_points [⟨0, 0⟩, ⟨1, 1⟩, ⟨2, 2⟩, ⟨3, 3⟩]).length ≤
      ([⟨0, 0⟩, ⟨1, 1⟩, ⟨2, 2⟩, ⟨3, 3⟩] : List LatLng).length :=
  c7_endpoints_preserved [⟨0, 0⟩, ⟨1, 1⟩, ⟨2, 2⟩, ⟨3, 3⟩] (by norm_num [USIZE])

/-- C8: under release-profile (wrapping) semantics the loop leaves a track
with fewer than three points untouched: the wrapped bound is huge but the
`i + 2 >= coords.len()` guard breaks immediately.  Under debug-profile `usize`
semantics, however, the loop bound `coords.len() - 3` itself panics on
underflow for those same tracks (`debugLoopBound` is `none`), so the claim's
"completes without failure" fails in debug builds — a bug in the code, since
the guard shows short tracks were meant to be handled. -/
theorem c8_short_track_behavior :
    (∀ a b : LatLng, remove_straight_line_points [a, b] = [a, b]) ∧
    (∀ a : LatLng, remove_straight_line_points [a] = [a]) ∧
    remove_straight_line_points [] = [] ∧
    debugLoopBound 2 = none ∧ debugLoopBound 1 = none ∧ debugLoopBound 0 = none := by
  refine ⟨fun a b => ?_, fun a => ?_, ?_, rfl, rfl, rfl⟩
  · norm_num [remove_straight_line_points, usizeSub3, USIZE]
    rw [rslpLoop]
    norm_num
  · norm_num [remove_straight_line_points, usizeSub3, USIZE]
    rw [rslpLoop]
    norm_num
  · norm_num [remove_straight_line_points, usizeSub3, USIZE]
    rw [rslpLoop]
    norm_num

/-! ## Novelty filter (`remove_files_without_new_points`, main.rs:176-245)

The registry `HashMap<String, HashSet<String>>` maps the string rendering of
the 4-digit-rounded latitude to the set of renderings of 4-digit-rounded
longitudes.  `f64::to_string` is injective on values, so the string keys are
modelled by the rounded `ℚ` values themselves; the hash map with unique keys
is modelled by an association list updated at the first matching key. -/

/-- The registry: coarse latitude to the set of coarse longitudes. -/
abbrev Reg := List (ℚ × List ℚ)

/-- `map.contains_key(&lat)` / `map.get(&lat)` combined: the set stored under
a coarse latitude, if any. -/
def lookupSet : Reg → ℚ → Option (List ℚ)
  | [], _ => none
  | (k, s) :: m, la => if k = la then some s else lookupSet m la

/-- `map.get_mut(&lat).unwrap().insert(lng)`: add a longitude to the set of
the (first) entry with the given latitude key. -/
def updateSet : Reg → ℚ → ℚ → Reg
  | [], _, _ => []
  | (k, s) :: m, la, ln => if k = la then (k, ln :: s) :: m else (k, s) :: updateSet m la ln

/-- Observation: is the coarse pair `(la, ln)` recorded in the registry? -/
def regMem (m : Reg) (la ln : ℚ) : Bool :=
  match lookupSet m la with
  | some s => decide (ln ∈ s)
  | none => false

/-- The per-track scan (main.rs:190-209): for each point take the coarse
4-digit key; if the latitude key exists and the longitude is present do
nothing, if the latitude key exists but the longitude is new insert it and
set `new_points`, and if the latitude key is absent insert a fresh singleton
set and set `new_points`. -/
def scanTrack : List LatLng → Reg → Bool → Reg × Bool
  | [], m, np => (m, np)
  | c :: rest, m, np =>
    let la := round_val c.lat 4
    let ln := round_val c.lng 4
    match lookupSet m la with
    | some s =>
      if ln ∈ s then scanTrack rest m np
      else scanTrack rest (updateSet m la ln) true
    | none => scanTrack rest ((la, [ln]) :: m) true

/-- Processing one file against the registry, starting from
`new_points = false` (main.rs:190). -/
def stepFile (m : Reg) (f : CoordsFile) : Reg × Bool :=
  scanTrack f.coords m false

/-- One activity-type pass (main.rs:184-216): scan every file of the matching
type against a shared registry, collecting in file order the names of files
that contributed no new point. -/
def passType (t : String) : List CoordsFile → Reg → List String
  | [], _ => []
  | f :: rest, m =>
    if f.trk_type = t then
      if (stepFile m f).2 then passType t rest (stepFile m f).1
      else f.name :: passType t rest (stepFile m f).1
    else passType t rest m

/-- `let activity_types = ["walking", "running", "cycling"]` (main.rs:181). -/
def activity_types : List String := ["walking", "running", "cycling"]

/-- The collected `remove_files` vector (main.rs:182-226): one pass per
activity type with a fresh registry, then every file of unknown type. -/
def removeNames (files : List CoordsFile) : List String :=
  (activity_types.flatMap (fun t => passType t files [])) ++
    (files.filter (fun f => decide (f.trk_type ∉ activity_types))).map (fun f => f.name)

/-- The registry state after a list of files has been processed by the pass
for type `t` (entries of other types leave the registry unchanged). -/
def regStep (t : String) (m : Reg) (f : CoordsFile) : Reg :=
  if f.trk_type = t then (stepFile m f).1 else m

/-- Registry accumulated by the type-`t` pass over a list of files. -/
def regAfter (t : String) (files : List CoordsFile) : Reg :=
  files.foldl (regStep t) []

/-- `parsed_files.iter().position(|v| *v.name == remove_file).unwrap()`
followed by `parsed_files.remove(position)` (main.rs:235-241): remove the
first file with the given name, panicking (`none`) if there is none. -/
def removeByName : List CoordsFile → String → Option (List CoordsFile)
  | [], _ => none
  | f :: rest, nm =>
    if f.name = nm then some rest
    else (removeByName rest nm).map (fun l => f :: l)

/-- The removal loop over all collected names (main.rs:235-241). -/
def removeAll (files : List CoordsFile) : List String → Option (List CoordsFile)
  | [] => some files
  | nm :: rest =>
    match removeByName files nm with
    | none => none
    | some files2 => removeAll files2 rest

/-- `remove_files_without_new_points` (main.rs:176-245): collect the names of
non-novel and unknown-type files, then remove each by name. -/
def remove_files_without_new_points (files : List CoordsFile) :
    Option (List CoordsFile) :=
  removeAll files (removeNames files)

theorem regMem_updateSet_of_regMem (m : Reg) (la ln x y : ℚ)
    (h : regMem m x y = true) : regMem (updateSet m la ln) x y = true := by
  induction m with
  | nil => simp [regMem, lookupSet] at h
  | cons p m ih =>
    obtain ⟨k, s⟩ := p
    by_cases hk : k = la
    · subst hk
      simp only [updateSet, if_pos rfl]
      by_cases hx : k = x
      · subst hx
        simp [regMem, lookupSet] at h ⊢
        exact Or.inr h
      · simp only [regMem, lookupSet, if_neg hx] at h ⊢
        exact h
    · simp only [updateSet, if_neg hk]
      by_cases hx : k = x
      · subst hx
        simp [regMem, lookupSet] at h ⊢
        exact h
      · simp only [regMem, lookupSet, if_neg hx] at h ⊢
        exact ih h

theorem regMem_updateSet_self (m : Reg) (la ln : ℚ) (s : List ℚ)
    (h : lookupSet m la = some s) : regMem (updateSet m la ln) la ln = true := by
  induction m with
  | nil => simp [lookupSet] at h
  | cons p m ih =>
    obtain ⟨k, s2⟩ := p
    by_cases hk : k = la
    · subst hk
      simp [updateSet, regMem, lookupSet]
    · simp only [lookupSet, if_neg hk] at h
      simp only [updateSet, if_neg hk, regMem, lookupSet, if_neg hk]
      exact ih h

theorem regMem_cons_self (m : Reg) (la ln : ℚ) :
    regMem ((la, [ln]) :: m) la ln = true := by
  simp [regMem, lookupSet]

theorem regMem_cons_of_regMem (m : Reg) (la ln x y : ℚ)
    (hnone : lookupSet m la = none) (h : regMem m x y = true) :
    regMem ((la, [ln]) :: m) x y = true := by
  by_cases hx : la = x
  · subst hx
    simp [regMem, hnone] at h
  · simp only [regMem, lookupSet, if_neg hx]
    exact h

theorem regMem_scanTrack_of_regMem (coords : List LatLng) (m : Reg) (np : Bool)
    (x y : ℚ) (h : regMem m x y = true) :
    regMem (scanTrack coords m np).1 x y = true := by
  induction coords generalizing m np with
  | nil => exact h
  | cons c rest ih =>
    cases hl : lookupSet m (round_val c.lat 4) with
    | some s =>
      by_cases hin : round_val c.lng 4 ∈ s
      · simp only [scanTrack, hl, if_pos hin]
        exact ih m np h
      · simp only [scanTrack, hl, if_neg hin]
        exact ih _ true (regMem_updateSet_of_regMem m _ _ x y h)
    | none =>
      simp only [scanTrack, hl]
      exact ih _ true (regMem_cons_of_regMem m _ _ x y hl h)

theorem regMem_scanTrack_all (coords : List LatLng) (m : Reg) (np : Bool) :
    ∀ c ∈ coords,
      regMem (scanTrack coords m np).1 (round_val c.lat 4) (round_val c.lng 4) = true := by
  induction coords generalizing m np with
  | nil => intro c hc; simp at hc
  | cons c0 rest ih =>
    intro c hc
    rcases List.mem_cons.mp hc with rfl | hmem
    · cases hl : lookupSet m (round_val c.lat 4) with
      | some s =>
        by_cases hin : round_val c.lng 4 ∈ s
        · simp only [scanTrack, hl, if_pos hin]
          exact regMem_scanTrack_of_regMem rest m np _ _ (by simp [regMem, hl, hin])
        · simp only [scanTrack, hl, if_neg hin]
          exact regMem_scanTrack_of_regMem rest _ true _ _
            (regMem_updateSet_self m _ _ s hl)
      | none =>
        simp only [scanTrack, hl]
        exact regMem_scanTrack_of_regMem rest _ true _ _ (regMem_cons_self m _ _)
    · cases hl : lookupSet m (round_val c0.lat 4) with
      | some s =>
        by_cases hin : round_val c0.lng 4 ∈ s
        · simp only [scanTrack, hl, if_pos hin]
          exact ih m np c hmem
        · simp only [scanTrack, hl, if_neg hin]
          exact ih _ true c hmem
      | none =>
        simp only [scanTrack, hl]
        exact ih _ true c hmem

theorem scanTrack_flag (coords : List LatLng) (m : Reg) (np : Bool) :
    (scanTrack coords m np).2 =
      (np || coords.any
        (fun c => !(regMem m (round_val c.lat 4) (round_val c.lng 4)))) := by
  induction coords generalizing m np with
  | nil => simp [scanTrack]
  | cons c rest ih =>
    cases hl : lookupSet m (round_val c.lat 4) with
    | some s =>
      by_cases hin : round_val c.lng 4 ∈ s
      · simp only [scanTrack, hl, if_pos hin]
        rw [ih]
        simp [regMem, hl, hin]
      · simp only [scanTrack, hl, if_neg hin]
        rw [ih]
        simp [regMem, hl, hin]
    | none =>
      simp only [scanTrack, hl]
      rw [ih]
      simp [regMem, hl]

theorem passType_sublist (t : String) (files : List CoordsFile) (m : Reg) :
    List.Sublist (passType t files m) (files.map (fun f => f.name)) := by
  induction files generalizing m with
  | nil => simp [passType]
  | cons f rest ih =>
    simp only [passType, List.map_cons]
    by_cases ht : f.trk_type = t
    · rw [if_pos ht]
      by_cases hnp : (stepFile m f).2
      · rw [if_pos hnp]
        exact List.Sublist.cons f.name (ih _)
      · rw [if_neg hnp]
        exact List.Sublist.cons₂ f.name (ih _)
    · rw [if_neg ht]
      exact List.Sublist.cons f.name (ih m)

theorem passType_append (t : String) (xs ys : List CoordsFile) (m : Reg) :
    passType t (xs ++ ys) m =
      passType t xs m ++ passType t ys (xs.foldl (regStep t) m) := by
  induction xs generalizing m with
  | nil => simp [passType]
  | cons f rest ih =>
    simp only [List.cons_append, passType, List.foldl_cons]
    by_cases ht : f.trk_type = t
    · simp only [regStep, if_pos ht]
      by_cases hnp : (stepFile m f).2 = true
      · rw [if_pos hnp, if_pos hnp]
        exact ih _
      · rw [if_neg hnp, if_neg hnp, List.cons_append]
        exact congrArg (fun l => f.name :: l) (ih _)
    · simp only [regStep, if_neg ht]
      exact ih m

theorem passType_nil_of_no_type (t : String) (files : List CoordsFile) (m : Reg)
    (h : ∀ f ∈ files, f.trk_type ≠ t) : passType t files m = [] := by
  induction files generalizing m with
  | nil => rfl
  | cons f rest ih =>
    simp only [passType]
    rw [if_neg (h f (by simp))]
    exact ih m (fun g hg => h g (by simp [hg]))

theorem removeByName_eq_filter (files : List CoordsFile) (nm : String)
    (hnd : (files.map (fun f => f.name)).Nodup)
    (hmem : nm ∈ files.map (fun f => f.name)) :
    removeByName files nm = some (files.filter (fun g => decide (g.name ≠ nm))) := by
  induction files with
  | nil => simp at hmem
  | cons f rest ih =>
    simp only [List.map_cons, List.nodup_cons] at hnd
    by_cases h : f.name = nm
    · simp only [removeByName, if_pos h]
      have hrest : rest.filter (fun g => decide (g.name ≠ nm)) = rest := by
        apply List.filter_eq_self.mpr
        intro g hg
        simp only [decide_eq_true_eq]
        intro hgn
        apply hnd.1
        have heq : f.name = g.name := by rw [h, hgn]
        rw [heq]
        exact List.mem_map_of_mem _ hg
      have hstep : (f :: rest).filter (fun g => decide (g.name ≠ nm)) = rest := by
        rw [List.filter_cons]
        have hcond : decide (f.name ≠ nm) = false := by simp [h]
        rw [hcond]
        simpa using hrest
      rw [hstep]
    · simp only [removeByName, if_neg h]
      have hmem2 : nm ∈ rest.map (fun f => f.name) := by
        rcases List.mem_cons.mp hmem with heq | hm
        · exact absurd heq.symm h
        · exact hm
      rw [ih hnd.2 hmem2]
      rw [List.filter_cons]
      simp [h]

theorem map_name_filter (files : List CoordsFile) (p : String → Bool) :
    (files.filter (fun g => p g.name)).map (fun g => g.name) =
      (files.map (fun g => g.name)).filter p := by
  induction files with
  | nil => rfl
  | cons f rest ih =>
    by_cases h : p f.name
    · simp [List.filter_cons, h, ih]
    · simp [List.filter_cons, h, ih]

theorem removeAll_eq_filter (rs : List String) (files : List CoordsFile)
    (hrs : rs.Nodup)
    (hsub : ∀ nm ∈ rs, nm ∈ files.map (fun f => f.name))
    (hnd : (files.map (fun f => f.name)).Nodup) :
    removeAll files rs = some (files.filter (fun g => decide (g.name ∉ rs))) := by
  induction rs generalizing files with
  | nil =>
    have h0 : files.filter (fun g => decide (g.name ∉ ([] : List String))) = files :=
      List.filter_eq_self.mpr (by intro a ha; simp)
    rw [removeAll, h0]
  | cons nm rest ih =>
    have hmem : nm ∈ files.map (fun f => f.name) := hsub nm (by simp)
    have hcons := List.nodup_cons.mp hrs
    have hrb := removeByName_eq_filter files nm hnd hmem
    simp only [removeAll, hrb]
    have hnd2 : ((files.filter (fun g => decide (g.name ≠ nm))).map
        (fun f => f.name)).Nodup := by
      rw [map_name_filter files (fun s => decide (s ≠ nm))]
      exact hnd.filter _
    have hsub2 : ∀ x ∈ rest, x ∈ (files.filter
        (fun g => decide (g.name ≠ nm))).map (fun f => f.name) := by
      intro x hx
      rw [map_name_filter files (fun s => decide (s ≠ nm))]
      apply List.mem_filter.mpr
      refine ⟨hsub x (by simp [hx]), ?_⟩
      simp only [decide_eq_true_eq]
      intro hxe
      exact hcons.1 (hxe ▸ hx)
    rw [ih _ hcons.2 hsub2 hnd2]
    rw [List.filter_filter]
    congr 1
    apply List.filter_congr
    intro a ha
    simp [List.mem_cons, not_or, Bool.and_comm]

theorem regMem_foldl_of_regMem (t : String) (rest : List CoordsFile) :
    ∀ (m : Reg) (la ln : ℚ), regMem m la ln = true →
      regMem (rest.foldl (regStep t) m) la ln = true := by
  induction rest with
  | nil => exact fun m la ln h => h
  | cons g rest ih =>
    intro m la ln h
    simp only [List.foldl_cons]
    apply ih
    unfold regStep
    by_cases hg : g.trk_type = t
    · rw [if_pos hg]
      exact regMem_scanTrack_of_regMem g.coords m false la ln h
    · rw [if_neg hg]
      exact h

theorem removeNames_all_type (t : String) (files : List CoordsFile)
    (ht : t ∈ activity_types)
    (hall : ∀ g ∈ files, g.trk_type = t) :
    removeNames files = passType t files [] := by
  have hunknown : files.filter (fun f => decide (f.trk_type ∉ activity_types)) = [] := by
    rw [List.filter_eq_nil_iff]
    intro a ha
    simp [hall a ha, ht]
  have hother : ∀ t2, t2 ≠ t → passType t2 files [] = [] := by
    intro t2 hne
    exact passType_nil_of_no_type t2 files []
      (fun g hg => by rw [hall g hg]; exact fun hh => hne hh.symm)
  unfold removeNames
  rw [hunknown]
  simp only [List.map_nil, List.append_nil]
  simp only [activity_types, List.mem_cons, List.not_mem_nil, or_false] at ht
  rcases ht with rfl | rfl | rfl
  · simp [activity_types, hother "running" (by decide), hother "cycling" (by decide)]
  · simp [activity_types, hother "walking" (by decide), hother "cycling" (by decide)]
  · simp [activity_types, hother "walking" (by decide), hother "running" (by decide)]

/-- C6: the registry only grows.  Recording a coarse pair survives the
processing of any further file (first conjunct) and of any further list of
files (third conjunct), and after a file is processed — dropped or not —
every one of its coarse coordinates is recorded in the registry (second
conjunct), affecting the novelty computation of every later track. -/
theorem c6_registry_monotone (m : Reg) (f : CoordsFile) (la ln : ℚ) (t : String)
    (rest : List CoordsFile) :
    (regMem m la ln = true → regMem (stepFile m f).1 la ln = true) ∧
    (∀ c ∈ f.coords,
      regMem (stepFile m f).1 (round_val c.lat 4) (round_val c.lng 4) = true) ∧
    (regMem m la ln = true → regMem (rest.foldl (regStep t) m) la ln = true) :=
  ⟨fun h => regMem_scanTrack_of_regMem f.coords m false la ln h,
   fun c hc => regMem_scanTrack_all f.coords m false c hc,
   fun h => regMem_foldl_of_regMem t rest m la ln h⟩

/-- Witness for `c6_registry_monotone` at a concrete registry and file. -/
theorem c6_registry_monotone_witness :
    regMem (stepFile [((0 : ℚ), [(0 : ℚ)])] ⟨"a.gpx", "walking", [⟨5, 6⟩]⟩).1 0 0 = true ∧
    regMem (stepFile [((0 : ℚ), [(0 : ℚ)])] ⟨"a.gpx", "walking", [⟨5, 6⟩]⟩).1
      (round_val 5 4) (round_val 6 4) = true := by
  constructor
  · exact (c6_registry_monotone [((0 : ℚ), [(0 : ℚ)])] ⟨"a.gpx", "walking", [⟨5, 6⟩]⟩
      0 0 "walking" []).1 (by simp [regMem, lookupSet])
  · exact (c6_registry_monotone [((0 : ℚ), [(0 : ℚ)])] ⟨"a.gpx", "walking", [⟨5, 6⟩]⟩
      0 0 "walking" []).2.1 ⟨5, 6⟩ (by simp)

/-- C5: for files all of one known activity type, processed in list order with
names pairwise distinct, the stage succeeds, a track with at least one coarse
coordinate absent from the registry accumulated by the earlier tracks is
retained, and a track all of whose coarse coordinates are already recorded is
dropped. -/
theorem c5_novelty_decision (t : String) (pre post : List CoordsFile) (f : CoordsFile)
    (ht : t ∈ activity_types)
    (hall : ∀ g ∈ pre ++ f :: post, g.trk_type = t)
    (hnd : ((pre ++ f :: post).map (fun g => g.name)).Nodup) :
    ∃ out, remove_files_without_new_points (pre ++ f :: post) = some out ∧
      ((∃ c ∈ f.coords,
          regMem (regAfter t pre) (round_val c.lat 4) (round_val c.lng 4) = false) →
        f ∈ out) ∧
      ((∀ c ∈ f.coords,
          regMem (regAfter t pre) (round_val c.lat 4) (round_val c.lng 4) = true) →
        f ∉ out) := by
  have hrn : removeNames (pre ++ f :: post) = passType t (pre ++ f :: post) [] :=
    removeNames_all_type t (pre ++ f :: post) ht hall
  have hft : f.trk_type = t := hall f (by simp)
  have hsplit : passType t (pre ++ f :: post) [] =
      passType t pre [] ++ passType t (f :: post) (regAfter t pre) :=
    passType_append t pre (f :: post) []
  have hstep : passType t (f :: post) (regAfter t pre) =
      if (stepFile (regAfter t pre) f).2 = true
      then passType t post (stepFile (regAfter t pre) f).1
      else f.name :: passType t post (stepFile (regAfter t pre) f).1 := by
    simp only [passType, if_pos hft]
  have hndsplit : f.name ∉ pre.map (fun g => g.name) ∧
      f.name ∉ post.map (fun g => g.name) := by
    rw [List.map_append, List.map_cons, List.nodup_append] at hnd
    refine ⟨fun hmem => ?_, (List.nodup_cons.mp hnd.2.1).1⟩
    exact (hnd.2.2 hmem) (List.mem_cons_self _ _)
  have hiff : f.name ∈ removeNames (pre ++ f :: post) ↔
      (stepFile (regAfter t pre) f).2 = false := by
    rw [hrn, hsplit, hstep]
    constructor
    · intro hm
      rcases List.mem_append.mp hm with hm1 | hm2
      · exact absurd ((passType_sublist t pre []).subset hm1) hndsplit.1
      · by_cases hflag : (stepFile (regAfter t pre) f).2 = true
        · rw [if_pos hflag] at hm2
          exact absurd ((passType_sublist t post _).subset hm2) hndsplit.2
        · cases hval : (stepFile (regAfter t pre) f).2
          · rfl
          · exact absurd hval hflag
    · intro hflag
      rw [if_neg (by simp [hflag])]
      exact List.mem_append_right _ (List.mem_cons_self _ _)
  have hrs_sub : ∀ nm ∈ removeNames (pre ++ f :: post),
      nm ∈ (pre ++ f :: post).map (fun g => g.name) := by
    intro nm hm
    rw [hrn] at hm
    exact (passType_sublist t (pre ++ f :: post) []).subset hm
  have hrs_nodup : (removeNames (pre ++ f :: post)).Nodup := by
    rw [hrn]
    exact (passType_sublist t (pre ++ f :: post) []).nodup hnd
  have hout := removeAll_eq_filter (removeNames (pre ++ f :: post)) (pre ++ f :: post)
    hrs_nodup hrs_sub hnd
  refine ⟨(pre ++ f :: post).filter
      (fun g => decide (g.name ∉ removeNames (pre ++ f :: post))), hout, ?_, ?_⟩
  · intro hex
    apply List.mem_filter.mpr
    refine ⟨by simp, ?_⟩
    simp only [decide_eq_true_eq]
    intro hmem
    have hflag := hiff.mp hmem
    have htrue : (stepFile (regAfter t pre) f).2 = true := by
      unfold stepFile
      rw [scanTrack_flag]
      simp only [Bool.false_or]
      apply List.any_eq_true.mpr
      obtain ⟨c, hc, hcm⟩ := hex
      exact ⟨c, hc, by simp [hcm]⟩
    rw [htrue] at hflag
    cases hflag
  · intro hallmem hin
    have hdec := (List.mem_filter.mp hin).2
    simp only [decide_eq_true_eq] at hdec
    apply hdec
    apply hiff.mpr
    unfold stepFile
    rw [scanTrack_flag]
    simp only [Bool.false_or]
    simp only [List.any_eq_false]
    intro c hc
    simp [hallmem c hc]

/-- Witness for `c5_novelty_decision`: two walking tracks with the same single
coarse point; the second contributes nothing new. -/
theorem c5_novelty_decision_witness :
    ∃ out, remove_files_without_new_points
        [⟨"a.gpx", "walking", [⟨1, 1⟩]⟩, ⟨"b.gpx", "walking", [⟨1, 1⟩]⟩] = some out ∧
      ((∃ c ∈ (⟨"b.gpx", "walking", [⟨1, 1⟩]⟩ : CoordsFile).coords,
          regMem (regAfter "walking" [⟨"a.gpx", "walking", [⟨1, 1⟩]⟩])
            (round_val c.lat 4) (round_val c.lng 4) = false) →
        (⟨"b.gpx", "walking", [⟨1, 1⟩]⟩ : CoordsFile) ∈ out) ∧
      ((∀ c ∈ (⟨"b.gpx", "walking", [⟨1, 1⟩]⟩ : CoordsFile).coords,
          regMem (regAfter "walking" [⟨"a.gpx", "walking", [⟨1, 1⟩]⟩])
            (round_val c.lat 4) (round_val c.lng 4) = true) →
        (⟨"b.gpx", "walking", [⟨1, 1⟩]⟩ : CoordsFile) ∉ out) := by
  have h := c5_novelty_decision "walking" [⟨"a.gpx", "walking", [⟨1, 1⟩]⟩] []
    ⟨"b.gpx", "walking", [⟨1, 1⟩]⟩
    (by simp [activity_types])
    (by
      intro g hg
      simp only [List.cons_append, List.nil_append, List.mem_cons,
        List.not_mem_nil, or_false] at hg
      rcases hg with rfl | rfl
      · rfl
      · rfl)
    (by simp)
  simpa using h

/-! ## Track loader (`read_files`, main.rs:70-143)

The XML tree is modelled by `Xml`; an attribute's text value is abstracted by
its `parse::<f64>()` outcome (`AttrVal.num q` when it parses to the value
modelled by `q`, `AttrVal.malformed` when parsing fails).  Text nodes carry
no tag and no attributes, so omitting them from `children` does not change
any `find`-by-tag or attribute lookup.  Directory traversal and the `.gpx`
extension filter are the out-of-scope discovery collaborator; the batch is
modelled as a list of (file name, file input) pairs.  Every `unwrap` of the
source is a potential process abort, modelled by `none` / `LoadResult.panicked`. -/

/-- Outcome of `attribute(..).parse::<f64>()` on an attribute value. -/
inductive AttrVal where
  | num (q : ℚ)
  | malformed
deriving DecidableEq, Repr

/-- An XML element: tag name, attributes, optional text content, children. -/
inductive Xml where
  | elem (tag : String) (attrs : List (String × AttrVal)) (txt : Option String)
      (children : List Xml)

/-- Tag name of an element. -/
def Xml.tag : Xml → String
  | .elem t _ _ _ => t

/-- Attribute list of an element. -/
def Xml.attrs : Xml → List (String × AttrVal)
  | .elem _ a _ _ => a

/-- `node.text()` (for `<t></t>` roxmltree yields `None`). -/
def Xml.txt : Xml → Option String
  | .elem _ _ tx _ => tx

/-- `node.children()`. -/
def Xml.children : Xml → List Xml
  | .elem _ _ _ k => k

mutual
/-- `doc.descendants()`: the node itself followed by all descendants in
document (pre-)order, as roxmltree enumerates them. -/
def descendants : Xml → List Xml
  | .elem t a tx kids => .elem t a tx kids :: descendantsList kids

/-- Descendants of a list of sibling nodes, in order. -/
def descendantsList : List Xml → List Xml
  | [] => []
  | x :: xs => descendants x ++ descendantsList xs
end

/-- `.find(|n| n.has_tag_name(t))` over a node sequence. -/
def find_tag (l : List Xml) (t : String) : Option Xml :=
  l.find? (fun n => n.tag = t)

/-- `node.attribute(name)`: first attribute with the given name. -/
def getAttr (attrs : List (String × AttrVal)) (n : String) : Option AttrVal :=
  (attrs.find? (fun p => p.1 = n)).map (fun p => p.2)

/-- `node.has_attribute(name)`. -/
def hasAttr (attrs : List (String × AttrVal)) (n : String) : Bool :=
  (getAttr attrs n).isSome

/-- The `for trkpt in trk_seg.children()` loop (main.rs:127-138): keep every
direct child carrying both a `lat` and a `lon` attribute, pushing the parsed
pair; `parse::<f64>().unwrap()` panics (`none`) when a value is malformed.
Children lacking either attribute are skipped silently. -/
def load_points : List Xml → Option (List LatLng)
  | [] => some []
  | pt :: rest =>
    if hasAttr pt.attrs "lat" && hasAttr pt.attrs "lon" then
      match getAttr pt.attrs "lat", getAttr pt.attrs "lon" with
      | some (.num la), some (.num ln) =>
        (load_points rest).map (fun cs => ⟨la, ln⟩ :: cs)
      | _, _ => none
    else load_points rest

/-- What the filesystem and XML parser deliver for one file: the read may
fail (`read_to_string` error), the text may fail to parse as XML
(`Document::parse_with_options` error), or a document tree is produced. -/
inductive FileInput where
  | unreadable
  | malformed
  | parsed (doc : Xml)

/-- Outcome of processing one file inside the `read_files` loop. -/
inductive LoadResult where
  | panicked
  | skipped
  | ok (f : CoordsFile)
deriving DecidableEq

/-- The per-file body of `read_files` (main.rs:90-139): an unreadable file
panics via `unwrap`; an XML parse error prints a diagnostic and `continue`s;
otherwise find the first `trk` among the document's descendants (`unwrap`),
its first `type` child (`unwrap`), that node's text (`unwrap`), fold
`"hiking"` into `"walking"`, find the first `trkseg` child (`unwrap`), and
collect its qualifying children as points. -/
def read_one_file (name : String) (input : FileInput) : LoadResult :=
  match input with
  | .unreadable => .panicked
  | .malformed => .skipped
  | .parsed doc =>
    match find_tag (descendants doc) "trk" with
    | none => .panicked
    | some trk =>
      match find_tag trk.children "type" with
      | none => .panicked
      | some tyElem =>
        match tyElem.txt with
        | none => .panicked
        | some ty =>
          match find_tag trk.children "trkseg" with
          | none => .panicked
          | some seg =>
            match load_points seg.children with
            | none => .panicked
            | some cs =>
              .ok ⟨name, if ty = "hiking" then "walking" else ty, cs⟩

/-- `read_files` (main.rs:70-143) over the discovered inputs: a panicking
file aborts the whole batch (`none`), a skipped file is excluded, a parsed
file contributes its `CoordsFile` in order. -/
def read_files : List (String × FileInput) → Option (List CoordsFile)
  | [] => some []
  | (nm, inp) :: rest =>
    match read_one_file nm inp with
    | .panicked => none
    | .skipped => read_files rest
    | .ok f => (read_files rest).map (fun fs => f :: fs)

/-- A document whose only track point is the (0,0) sentinel. -/
def doc00 : Xml :=
  .elem "gpx" [] none
    [.elem "trk" [] none
      [.elem "type" [] (some "walking") [],
       .elem "trkseg" [] none
         [.elem "trkpt" [("lat", .num 0), ("lon", .num 0)] none []]]]

/-- C3 (counterexample): the loader pushes a (0,0) point like any other —
`read_files` has no zero test — so the sentinel point enters the track's
point sequence, contradicting the claim that it never does. -/
theorem c3_counterexample :
    read_one_file "f.gpx" (.parsed doc00) = .ok ⟨"f.gpx", "walking", [⟨0, 0⟩]⟩ := by
  rfl

/-- C3 (amended): a point element whose `lat` and `lon` both parse to exactly
zero is loaded like any other point: it is prepended to the remaining points,
and the file is processed normally; the loader performs no (0,0)-sentinel
filtering. -/
theorem c3_amended_zero_point_loaded :
    ∀ (tg : String) (ats : List (String × AttrVal)) (tx : Option String)
      (kids rest : List Xml),
      load_points (.elem tg (("lat", .num 0) :: ("lon", .num 0) :: ats) tx kids :: rest) =
        (load_points rest).map (fun cs => ⟨0, 0⟩ :: cs) := by
  intro tg ats tx kids rest
  simp [load_points, hasAttr, getAttr, List.find?]

/-- A well-formed document with one running-track point (1,2). -/
def docGood : Xml :=
  .elem "gpx" [] none
    [.elem "trk" [] none
      [.elem "type" [] (some "running") [],
       .elem "trkseg" [] none
         [.elem "trkpt" [("lat", .num 1), ("lon", .num 2)] none []]]]

/-- C4 (counterexample): an unreadable first file panics via `unwrap` and
aborts the whole batch — `read_files` yields `none` — even though the second
file alone would load fine (second conjunct shows what continuing would have
produced). -/
theorem c4_counterexample :
    read_files [("a.gpx", .unreadable), ("b.gpx", .parsed docGood)] = none ∧
    read_files [("b.gpx", .parsed docGood)] =
      some [⟨"b.gpx", "running", [⟨1, 2⟩]⟩] :=
  ⟨rfl, rfl⟩

/-- C4 (amended): only an XML parse failure is skipped with a diagnostic while
the batch continues (first conjunct); an unreadable file aborts the batch
(second), a document without a `trk` element aborts the batch (third), and a
malformed numeric point attribute panics while collecting points (fourth). -/
theorem c4_amended_unwrap_aborts :
    (∀ (nm : String) (rest : List (String × FileInput)),
      read_files ((nm, .malformed) :: rest) = read_files rest) ∧
    (∀ (nm : String) (rest : List (String × FileInput)),
      read_files ((nm, .unreadable) :: rest) = none) ∧
    (∀ (nm : String) (ats : List (String × AttrVal)) (tx : Option String)
       (rest : List (String × FileInput)),
      read_files ((nm, .parsed (.elem "gpx" ats tx [])) :: rest) = none) ∧
    (∀ (tg : String) (b : ℚ) (tx : Option String) (kids : List Xml)
       (rest2 : List Xml),
      load_points (.elem tg [("lat", .malformed), ("lon", .num b)] tx kids :: rest2) =
        none) := by
  refine ⟨fun nm rest => rfl, fun nm rest => rfl,
    fun nm ats tx rest => ?_, fun tg b tx kids rest2 => ?_⟩
  · simp [read_files, read_one_file, find_tag, descendants, descendantsList,
      Xml.tag, List.find?]
  · simp [load_points, hasAttr, getAttr, List.find?]

/-- C10: the loader takes points only from the first `trkseg` child of the
first `trk` element in document order — the second `trk` and any further
children of the first `trk` (e.g. later `trkseg`s) contribute nothing — and
within that segment only direct children carrying both `lat` and `lon`; an
element with `lng` instead of `lon` is skipped (second conjunct). -/
theorem c10_first_trk_first_trkseg :
    (∀ (name ty : String) (tyAttrs : List (String × AttrVal))
       (pts1 extra trk2kids : List Xml) (trk2attrs : List (String × AttrVal))
       (trk2txt : Option String),
      read_one_file name (.parsed (.elem "gpx" [] none
          [.elem "trk" [] none
              (.elem "type" tyAttrs (some ty) [] ::
                .elem "trkseg" [] none pts1 :: extra),
           .elem "trk" trk2attrs trk2txt trk2kids])) =
        match load_points pts1 with
        | some cs => .ok ⟨name, if ty = "hiking" then "walking" else ty, cs⟩
        | none => .panicked) ∧
    (∀ (tg : String) (a b : ℚ) (tx : Option String) (kids rest : List Xml),
      load_points (.elem tg [("lat", .num a), ("lng", .num b)] tx kids :: rest) =
        load_points rest) := by
  constructor
  · intro name ty tyAttrs pts1 extra trk2kids trk2attrs trk2txt
    cases h : load_points pts1 with
    | none =>
      simp [read_one_file, descendants, descendantsList, find_tag,
        Xml.tag, Xml.children, Xml.txt, h]
    | some cs =>
      simp [read_one_file, descendants, descendantsList, find_tag,
        Xml.tag, Xml.children, Xml.txt, h]
  · intro tg a b tx kids rest
    simp [load_points, hasAttr, getAttr, List.find?]

/-! ## Writer (`output_result_files`, main.rs:285-318)

The per-track output text.  Filesystem work (directories, file creation) is
the out-of-scope output collaborator; the serialisation of one `f64` by
`to_string` is abstracted as a rendering function `ℚ → String`. -/

/-- One pair `"[" + lat + "," + lng + "]"` (main.rs:309-310). -/
def coordStr (s : ℚ → String) (c : LatLng) : String :=
  "[" ++ s c.lat ++ "," ++ s c.lng ++ "]"

/-- The `for coord in &file.coords` loop (main.rs:308-315): append a comma to
a pair exactly when the coordinate is not value-equal (`PartialEq`) to
`file.coords.last().unwrap()`. -/
def writeBody (s : ℚ → String) (lastc : LatLng) : List LatLng → String
  | [] => ""
  | c :: rest =>
    (coordStr s c ++ (if c ≠ lastc then "," else "")) ++ writeBody s lastc rest

/-- The full text written for one track (main.rs:305-316):
`var <name> = [<pairs>];`, where `coords.last()` is only consulted inside the
loop, so an empty track yields `[]`. -/
def output_result_text (s : ℚ → String) (var_name : String)
    (coords : List LatLng) : String :=
  "var " ++ var_name ++ " = [" ++
    (match coords.getLast? with
     | none => ""
     | some lastc => writeBody s lastc coords) ++ "];"

/-- The comma-separated array-literal body the spec describes. -/
def joinPairs (s : ℚ → String) : List LatLng → String
  | [] => ""
  | [c] => coordStr s c
  | c :: c2 :: rest => coordStr s c ++ "," ++ joinPairs s (c2 :: rest)

/-- A concrete stand-in for the `f64` `Display` rendering, on the few values
the counterexample uses (any injective rendering exhibits the same comma
structure). -/
def displayNum (q : ℚ) : String :=
  if q = 1 then "1" else if q = 2 then "2" else if q = 3 then "3" else "0"

/-- C9 (counterexample): a surviving track of the pipeline can repeat its
last point earlier in the list (e.g. input [A,B,A] leaves simplification as
[A,A]); the equality-with-last test then omits the comma after the earlier
pair, so the writer does not emit the comma-separated form. -/
theorem c9_counterexample :
    output_result_text displayNum "n" [⟨1, 1⟩, ⟨1, 1⟩] = "var n = [[1,1][1,1]];" ∧
    output_result_text displayNum "n" [⟨1, 1⟩, ⟨1, 1⟩] ≠ "var n = [[1,1],[1,1]];" := by
  constructor
  · rfl
  · intro h
    rw [show output_result_text displayNum "n" [⟨1, 1⟩, ⟨1, 1⟩] =
        "var n = [[1,1][1,1]];" from rfl] at h
    simp at h

theorem writeBody_eq_joinPairs (s : ℚ → String) (lastc : LatLng) :
    ∀ (coords : List LatLng), coords.getLast? = some lastc →
      (∀ c ∈ coords.dropLast, c ≠ lastc) →
      writeBody s lastc coords = joinPairs s coords := by
  intro coords
  induction coords with
  | nil => intro hlast; simp at hlast
  | cons c rest ih =>
    intro hlast h
    cases rest with
    | nil =>
      simp only [List.getLast?_singleton, Option.some.injEq] at hlast
      subst hlast
      simp [writeBody, joinPairs]
    | cons c2 rest2 =>
      have hc : c ≠ lastc := h c (by simp)
      have hlast2 : (c2 :: rest2).getLast? = some lastc := by
        rw [List.getLast?_cons_cons] at hlast
        exact hlast
      have h2 : ∀ x ∈ (c2 :: rest2).dropLast, x ≠ lastc := by
        intro x hx
        exact h x (by simp [hx])
      rw [show writeBody s lastc (c :: c2 :: rest2) =
            (coordStr s c ++ (if c ≠ lastc then "," else "")) ++
              writeBody s lastc (c2 :: rest2) from rfl,
          show joinPairs s (c :: c2 :: rest2) =
            coordStr s c ++ "," ++ joinPairs s (c2 :: rest2) from rfl,
          if_pos hc, ih hlast2 h2]

/-- C9 (amended): a comma follows a pair exactly when the coordinate is not
value-equal to the track's last point; hence whenever no earlier point equals
the last point the writer emits exactly the comma-separated
`var <name> = [[lat,lng],[lat,lng],...];`, and `[]` for an empty track. -/
theorem c9_amended_comma_rule (s : ℚ → String) (nm : String) (coords : List LatLng)
    (h : ∀ c ∈ coords.dropLast, ¬coords.getLast? = some c) :
    output_result_text s nm coords =
      "var " ++ nm ++ " = [" ++ joinPairs s coords ++ "];" := by
  cases hl : coords.getLast? with
  | none =>
    have hnil : coords = [] := by
      cases coords with
      | nil => rfl
      | cons a l => simp at hl
    subst hnil
    rfl
  | some lastc =>
    simp only [output_result_text, hl]
    exact congrArg (fun b => "var " ++ nm ++ " = [" ++ b ++ "];")
      (writeBody_eq_joinPairs s lastc coords hl
        (fun c hc hcl => h c hc (hcl ▸ hl)))

/-- Witness for `c9_amended_comma_rule` at a concrete two-point track. -/
theorem c9_amended_comma_rule_witness :
    output_result_text displayNum "w" [⟨1, 1⟩, ⟨2, 3⟩] = "var w = [[1,1],[2,3]];" := by
  have h := c9_amended_comma_rule displayNum "w" [⟨1, 1⟩, ⟨2, 3⟩] (by decide)
  rw [h]
  rfl
